import Mathlib

/-!
Verification of the merge/flatten/line-wrap machinery of `bikeshed/highlight.py`.

Strings of the Python source are modelled as `List Char`; the lxml document
tree is modelled by the inductive `HNode` (text nodes and element nodes with a
tag, an attribute association list and a child list).  Pure helper functions
from `bikeshed.htmlhelpers` (which is not part of the sources at hand) are
modelled from the spec where their behavior matters; each such definition says
so in its doc comment.
-/

/-- Characters of a Python string. -/
abbrev Str := List Char

/-- Shorthand turning a Lean string literal into the `Str` model. -/
def S (s : String) : Str := s.data

/-- `ColoredText` named tuple from `highlight.py`: a run of text together with
an optional highlight class. -/
structure ColoredText where
  text : Str
  color : Option Str
  deriving DecidableEq

/-- A node of the (lxml) markup tree: either raw text or an element with a tag,
an attribute list and children.  Text held in lxml `.text`/`.tail` slots is
represented by `text` children in document order. -/
inductive HNode where
  | text : Str → HNode
  | elem : Str → List (Str × Str) → List HNode → HNode

/-- Association-list lookup, modelling Python `dict.get(key, None)` /
lxml `el.get(name)`. -/
def lookupName : List (Str × Str) → Str → Option Str
  | [], _ => none
  | (k, v) :: rest, key => if k = key then some v else lookupName rest key

/-- Update-or-append on an association list, modelling lxml `el.set(name, v)`. -/
def setPair : List (Str × Str) → Str → Str → List (Str × Str)
  | [], key, v => [(key, v)]
  | (k, w) :: rest, key, v =>
    if k = key then (key, v) :: rest else (k, w) :: setPair rest key v

/-- Attribute lookup on a node (`none` on raw text). -/
def getAttr (n : HNode) (key : Str) : Option Str :=
  match n with
  | .text _ => none
  | .elem _ attrs _ => lookupName attrs key

/-- Attribute update on a node (identity on raw text, which the source never
does). -/
def setAttr (n : HNode) (key v : Str) : HNode :=
  match n with
  | .text s => .text s
  | .elem t attrs cs => .elem t (setPair attrs key v) cs

/-- `isElement` from htmlhelpers: whether a child node is an element. -/
def isElement : HNode → Bool
  | .text _ => false
  | .elem _ _ _ => true

/-- `childNodes(el)` from htmlhelpers: the ordered child nodes (text runs and
elements) of an element; raw text has none. -/
def childNodesOf : HNode → List HNode
  | .text _ => []
  | .elem _ _ cs => cs

/-- `hasChildElements` from htmlhelpers: whether any child is an element. -/
def hasChildElements (n : HNode) : Bool :=
  (childNodesOf n).any isElement

/-- Python `len(el)` on an lxml element: the number of child *elements*
(text inside the element is not counted). -/
def elemChildCount (n : HNode) : Nat :=
  (childNodesOf n).countP isElement

mutual

/-- Concatenated text content of a node (`textContent` from htmlhelpers). -/
def concatTextNode : HNode → Str
  | .text s => s
  | .elem _ _ cs => concatTextList cs

/-- Concatenated text content of a node list. -/
def concatTextList : List HNode → Str
  | [] => []
  | n :: rest => concatTextNode n ++ concatTextList rest

end

/-- Concatenation of the texts of a colored-run sequence. -/
def concatCT : List ColoredText → Str
  | [] => []
  | c :: rest => c.text ++ concatCT rest

/-- `createEl` from `mergeHighlighting`: `E.span({"class": color}, text)`. -/
def createEl (color : Str) (text : Str) : HNode :=
  .elem (S "span") [(S "class", color)] [.text text]

/-- The node emitted by `colorizeText` for one run: raw text when the run is
uncolored, a `createEl` span otherwise. -/
def emitRun (color : Option Str) (text : Str) : HNode :=
  match color with
  | none => .text text
  | some col => createEl col text

/-- `colorizeText` from `mergeHighlighting`: drain the run queue against one
text leaf.  Returns the emitted nodes and the remaining queue.  A run at most
as long as the remaining leaf text is consumed whole; a longer run is emitted
only up to the leaf text and its unconsumed remainder is pushed back on the
front of the queue. -/
def colorizeText (text : Str) : List ColoredText → List HNode × List ColoredText
  | [] => ([], [])
  | c :: rest =>
    if text = [] then ([], c :: rest)
    else if c.text.length ≤ text.length then
      let res := colorizeText (text.drop c.text.length) rest
      (emitRun c.color c.text :: res.1, res.2)
    else
      ([emitRun c.color text], ⟨c.text.drop text.length, c.color⟩ :: rest)

mutual

/-- `colorizeEl` from `mergeHighlighting`: rebuild one element with every text
leaf colorized, threading the run queue.  (The source only calls it on
elements; on raw text it would not recurse, so the model returns it as is.) -/
def colorizeEl : HNode → List ColoredText → HNode × List ColoredText
  | .text s, ct => (.text s, ct)
  | .elem t a cs, ct =>
    let r := colorizeChildren cs ct
    (.elem t a r.1, r.2)

/-- `colorizeEl`'s loop over a child list: elements are rebuilt with their
children colorized, text leaves are replaced by the nodes `colorizeText`
produces; the run queue threads through left-to-right. -/
def colorizeChildren : List HNode → List ColoredText → List HNode × List ColoredText
  | [], ct => ([], ct)
  | .text s :: rest, ct =>
    let r1 := colorizeText s ct
    let r2 := colorizeChildren rest r1.2
    (r1.1 ++ r2.1, r2.2)
  | .elem t a cs :: rest, ct =>
    let r1 := colorizeEl (.elem t a cs) ct
    let r2 := colorizeChildren rest r1.2
    (r1.1 :: r2.1, r2.2)

end

/-- `mergeHighlighting(el, coloredText)`: the element after the in-place merge
(the remaining queue is discarded by the source). -/
def mergeHighlighting (n : HNode) (ct : List ColoredText) : HNode :=
  (colorizeEl n ct).1

theorem emitRun_text (color : Option Str) (t : Str) :
    concatTextNode (emitRun color t) = t := by
  cases color <;> simp [emitRun, createEl, concatTextNode, concatTextList]

theorem concatTextList_append (a b : List HNode) :
    concatTextList (a ++ b) = concatTextList a ++ concatTextList b := by
  induction a with
  | nil => simp [concatTextList]
  | cons n rest ih => simp [concatTextList, ih]

/-- When the run queue's text covers the leaf text `s` and continues with `r`,
`colorizeText` emits exactly `s` and leaves a queue whose text is `r`. -/
theorem colorizeText_cover (ct : List ColoredText) :
    ∀ (s r : Str), concatCT ct = s ++ r →
      concatTextList (colorizeText s ct).1 = s ∧ concatCT (colorizeText s ct).2 = r := by
  induction ct with
  | nil =>
    intro s r h
    simp only [concatCT] at h
    obtain ⟨hs, hr⟩ := (List.append_eq_nil).1 h.symm
    subst hs; subst hr
    simp [colorizeText, concatTextList, concatCT]
  | cons c rest ih =>
    intro s r h
    simp only [concatCT] at h
    by_cases hs : s = []
    · subst hs
      simp only [colorizeText, if_pos rfl]
      exact ⟨rfl, by simpa [concatCT] using h⟩
    · by_cases hle : c.text.length ≤ s.length
      · obtain ⟨m, hm1, hm2⟩ : ∃ m, s = c.text ++ m ∧ concatCT rest = m ++ r := by
          rcases List.append_eq_append_iff.1 h with ⟨m, hm1, hm2⟩ | ⟨m, hm1, hm2⟩
          · exact ⟨m, hm1, hm2⟩
          · have : m = [] := by
              have hl := congrArg List.length hm1
              simp at hl
              exact List.eq_nil_of_length_eq_zero (by omega)
            subst this
            exact ⟨[], by simpa using hm1.symm, by simpa using hm2.symm⟩
        have hdrop : s.drop c.text.length = m := by
          rw [hm1, List.drop_left]
        obtain ⟨ih1, ih2⟩ := ih m r hm2
        simp only [colorizeText, if_neg hs, if_pos hle, hdrop]
        refine ⟨?_, ih2⟩
        simp [concatTextList, emitRun_text, ih1, hm1]
      · obtain ⟨m, hm1, hm2⟩ : ∃ m, c.text = s ++ m ∧ r = m ++ concatCT rest := by
          rcases List.append_eq_append_iff.1 h with ⟨m, hm1, hm2⟩ | ⟨m, hm1, hm2⟩
          · exfalso
            have := congrArg List.length hm1
            simp at this
            omega
          · exact ⟨m, hm1, hm2⟩
        have hdrop : c.text.drop s.length = m := by
          rw [hm1, List.drop_left]
        simp only [colorizeText, if_neg hs, if_neg hle]
        constructor
        · simp [concatTextList, emitRun_text]
        · simp [concatCT, hdrop, hm2]

/-- When the leaf text `s` extends past the whole run queue by `r`,
`colorizeText` emits exactly the queue's text (the trailing `r` is dropped)
and the remaining queue carries no text. -/
theorem colorizeText_drain (ct : List ColoredText) :
    ∀ (s r : Str), s = concatCT ct ++ r →
      concatTextList (colorizeText s ct).1 = concatCT ct ∧
      concatCT (colorizeText s ct).2 = [] := by
  induction ct with
  | nil =>
    intro s r h
    simp [colorizeText, concatTextList, concatCT]
  | cons c rest ih =>
    intro s r h
    simp only [concatCT] at h ⊢
    by_cases hs : s = []
    · subst hs
      have h' := h.symm
      rw [List.append_assoc] at h'
      obtain ⟨h1, h2⟩ := (List.append_eq_nil).1 h'
      obtain ⟨h3, h4⟩ := (List.append_eq_nil).1 h2
      simp only [colorizeText, if_pos rfl]
      simp [concatTextList, concatCT, h1, h3]
    · rw [List.append_assoc] at h
      have hle : c.text.length ≤ s.length := by
        subst h; simp
      have hdrop : s.drop c.text.length = concatCT rest ++ r := by
        rw [h, List.drop_left]
      obtain ⟨ih1, ih2⟩ := ih (s.drop c.text.length) r hdrop
      simp only [colorizeText, if_neg hs, if_pos hle]
      refine ⟨?_, ih2⟩
      simp [concatTextList, emitRun_text, ih1]

/-- Tree-level version of `colorizeText_cover`: if the queue's text covers the
child list's text and continues with `r`, colorizing emits the same text and
leaves a queue carrying exactly `r`. -/
theorem colorizeChildren_cover :
    ∀ (cs : List HNode) (ct : List ColoredText) (r : Str),
      concatCT ct = concatTextList cs ++ r →
      concatTextList (colorizeChildren cs ct).1 = concatTextList cs ∧
      concatCT (colorizeChildren cs ct).2 = r
  | [], ct, r, h => by
    simpa [colorizeChildren, concatTextList] using h
  | .text s :: rest, ct, r, h => by
    rw [concatTextList, List.append_assoc] at h
    obtain ⟨e1, e2⟩ := colorizeText_cover ct s (concatTextList rest ++ r) h
    obtain ⟨f1, f2⟩ := colorizeChildren_cover rest (colorizeText s ct).2 r e2
    simp only [colorizeChildren]
    exact ⟨by simp [concatTextList_append, e1, f1, concatTextList, concatTextNode], f2⟩
  | .elem t a cs :: rest, ct, r, h => by
    rw [concatTextList, concatTextNode, List.append_assoc] at h
    obtain ⟨e1, e2⟩ := colorizeChildren_cover cs ct (concatTextList rest ++ r) h
    obtain ⟨f1, f2⟩ :=
      colorizeChildren_cover rest (colorizeChildren cs ct).2 r e2
    simp only [colorizeChildren, colorizeEl]
    exact ⟨by simp [concatTextList, concatTextNode, e1, f1], f2⟩
termination_by cs _ _ _ => sizeOf cs
decreasing_by all_goals (simp_wf <;> omega)

/-- Tree-level version of `colorizeText_drain`: if the child list's text
extends past the whole queue by `r`, colorizing emits exactly the queue's text
(the trailing `r` is dropped) and the leftover queue carries no text. -/
theorem colorizeChildren_drain :
    ∀ (cs : List HNode) (ct : List ColoredText) (r : Str),
      concatTextList cs = concatCT ct ++ r →
      concatTextList (colorizeChildren cs ct).1 = concatCT ct ∧
      concatCT (colorizeChildren cs ct).2 = []
  | [], ct, r, h => by
    simp only [concatTextList] at h
    obtain ⟨h1, h2⟩ := (List.append_eq_nil).1 h.symm
    simp [colorizeChildren, concatTextList, h1]
  | .text s :: rest, ct, r, h => by
    rw [concatTextList, concatTextNode] at h
    rcases List.append_eq_append_iff.1 h with ⟨m, hm1, hm2⟩ | ⟨m, hm1, hm2⟩
    · -- the queue covers the leaf `s` and continues with `m`
      obtain ⟨e1, e2⟩ := colorizeText_cover ct s m hm1
      obtain ⟨f1, f2⟩ := colorizeChildren_drain rest (colorizeText s ct).2 r
        (by rw [e2]; exact hm2)
      simp only [colorizeChildren]
      refine ⟨?_, f2⟩
      rw [concatTextList_append, e1, f1, e2, hm1]
    · -- the leaf `s` extends past the whole queue by `m`
      obtain ⟨e1, e2⟩ := colorizeText_drain ct s m hm1
      obtain ⟨f1, f2⟩ := colorizeChildren_drain rest (colorizeText s ct).2
        (concatTextList rest) (by rw [e2]; simp)
      simp only [colorizeChildren]
      refine ⟨?_, f2⟩
      rw [concatTextList_append, e1, f1, e2]
      simp
  | .elem t a cs :: rest, ct, r, h => by
    rw [concatTextList, concatTextNode] at h
    rcases List.append_eq_append_iff.1 h with ⟨m, hm1, hm2⟩ | ⟨m, hm1, hm2⟩
    · obtain ⟨e1, e2⟩ := colorizeChildren_cover cs ct m hm1
      obtain ⟨f1, f2⟩ := colorizeChildren_drain rest (colorizeChildren cs ct).2 r
        (by rw [e2]; exact hm2)
      simp only [colorizeChildren, colorizeEl]
      refine ⟨?_, f2⟩
      rw [concatTextList, concatTextNode, e1, f1, e2, hm1]
    · obtain ⟨e1, e2⟩ := colorizeChildren_drain cs ct m hm1
      obtain ⟨f1, f2⟩ := colorizeChildren_drain rest (colorizeChildren cs ct).2
        (concatTextList rest) (by rw [e2]; simp)
      simp only [colorizeChildren, colorizeEl]
      refine ⟨?_, f2⟩
      rw [concatTextList, concatTextNode, e1, f1, e2]
      simp
termination_by cs _ _ _ => sizeOf cs
decreasing_by all_goals (simp_wf <;> omega)

/-- C1: for every fragment tree and every colored-run sequence whose
concatenated run texts equal the fragment's concatenated text content,
`mergeHighlighting` preserves the text exactly: the concatenation of all text
in the merged tree equals the concatenation of all text in the original
tree. -/
theorem mergeHighlighting_preserves_text (n : HNode) (ct : List ColoredText)
    (h : concatCT ct = concatTextNode n) :
    concatTextNode (mergeHighlighting n ct) = concatTextNode n := by
  cases n with
  | text s => simp [mergeHighlighting, colorizeEl]
  | elem t a cs =>
    have hc := colorizeChildren_cover cs ct []
      (by simpa [concatTextNode] using h)
    simp only [mergeHighlighting, colorizeEl, concatTextNode]
    exact hc.1

/-- Concrete fragment used by the C1 witness: `<pre>fo<em>o</em></pre>`. -/
def mergeExampleEl : HNode :=
  .elem (S "pre") [] [.text (S "fo"), .elem (S "em") [] [.text (S "o")]]

/-- Concrete run sequence used by the C1 witness. -/
def mergeExampleCT : List ColoredText := [⟨S "foo", some (S "k")⟩]

theorem mergeHighlighting_preserves_text_witness :
    concatCT mergeExampleCT = concatTextNode mergeExampleEl ∧
    concatTextNode (mergeHighlighting mergeExampleEl mergeExampleCT) =
      concatTextNode mergeExampleEl :=
  ⟨rfl, mergeHighlighting_preserves_text mergeExampleEl mergeExampleCT rfl⟩

/-- C5: when the front run's text is longer than the current leaf's remaining
text, only the part matching the leaf is emitted and the unconsumed remainder
(same category, shortened text) is pushed back on the front of the queue; in
particular the run `("foobar","k")` merged over the leaves `"foo"` and `"bar"`
yields one span `<k>foo</k>` for the first leaf and one span `<k>bar</k>` for
the second. -/
theorem colorizeText_pushback (t : Str) (c : ColoredText)
    (rest : List ColoredText) (h1 : t ≠ []) (h2 : t.length < c.text.length) :
    colorizeText t (c :: rest) =
      ([emitRun c.color t], ⟨c.text.drop t.length, c.color⟩ :: rest) ∧
    mergeHighlighting
        (.elem (S "pre") [] [.text (S "foo"), .elem (S "em") [] [.text (S "bar")]])
        [⟨S "foobar", some (S "k")⟩] =
      .elem (S "pre") []
        [createEl (S "k") (S "foo"),
         .elem (S "em") [] [createEl (S "k") (S "bar")]] := by
  refine ⟨?_, rfl⟩
  simp only [colorizeText, if_neg h1,
    if_neg (by omega : ¬ c.text.length ≤ t.length)]

theorem colorizeText_pushback_witness :
    S "foo" ≠ [] ∧ (S "foo").length < (S "foobar").length ∧
    colorizeText (S "foo") [⟨S "foobar", some (S "k")⟩] =
      ([emitRun (some (S "k")) (S "foo")],
       [⟨S "bar", some (S "k")⟩]) :=
  ⟨by decide, by decide,
    (colorizeText_pushback (S "foo") ⟨S "foobar", some (S "k")⟩ []
      (by decide) (by decide)).1⟩

/-- C3 counterexample: on mismatched input `mergeHighlighting` does not fail;
it silently produces a partially merged tree.  With fragment text `"ab"` and a
single run `"a"` the merged tree's text is no longer the fragment's text (the
leftover leaf text `"b"` is dropped), and with fragment text `"a"` and runs
`"a","b"` the leftover run `"b"` is left unconsumed and discarded. -/
theorem mergeHighlighting_mismatch_counterexample :
    concatTextNode (mergeHighlighting (.elem (S "pre") [] [.text (S "ab")])
        [⟨S "a", some (S "k")⟩]) ≠
      concatTextNode (.elem (S "pre") [] [.text (S "ab")]) ∧
    (colorizeEl (.elem (S "pre") [] [.text (S "a")])
        [⟨S "a", some (S "k")⟩, ⟨S "b", some (S "k")⟩]).2 =
      [⟨S "b", some (S "k")⟩] ∧
    mergeHighlighting (.elem (S "pre") [] [.text (S "a")])
        [⟨S "a", some (S "k")⟩, ⟨S "b", some (S "k")⟩] =
      .elem (S "pre") [] [createEl (S "k") (S "a")] :=
  ⟨by decide, rfl, rfl⟩

/-- C3 amended: no assertion guards the merge.  When the fragment's text
extends past the runs by `r`, exactly the runs' text is emitted and the
leftover leaf text is silently dropped; when the runs extend past the
fragment's text by `r`, the fragment's text is emitted and the unconsumed
remainder of the queue (text `r`) is silently discarded. -/
theorem mergeHighlighting_mismatch_truncates (tag : Str)
    (attrs : List (Str × Str)) (cs : List HNode) (ct : List ColoredText)
    (r : Str) :
    (concatTextList cs = concatCT ct ++ r →
      concatTextNode (mergeHighlighting (.elem tag attrs cs) ct) = concatCT ct) ∧
    (concatCT ct = concatTextList cs ++ r →
      concatTextNode (mergeHighlighting (.elem tag attrs cs) ct) =
        concatTextList cs ∧
      concatCT (colorizeEl (.elem tag attrs cs) ct).2 = r) := by
  constructor
  · intro h
    have hd := colorizeChildren_drain cs ct r h
    simp only [mergeHighlighting, colorizeEl, concatTextNode]
    exact hd.1
  · intro h
    have hc := colorizeChildren_cover cs ct r h
    simp only [mergeHighlighting, colorizeEl, concatTextNode]
    exact ⟨hc.1, hc.2⟩

theorem mergeHighlighting_mismatch_truncates_witness :
    concatTextNode (mergeHighlighting (.elem (S "pre") [] [.text (S "ab")])
        [⟨S "a", some (S "k")⟩]) = concatCT [⟨S "a", some (S "k")⟩] :=
  (mergeHighlighting_mismatch_truncates (S "pre") [] [.text (S "ab")]
      [⟨S "a", some (S "k")⟩] (S "b")).1 rfl

/-- Python `text.split(sep)` for a one-character separator: the list of
chunks between occurrences of `sep` (an empty string yields `[""]`,
`"\n".split("\n")` yields `["",""]`). -/
def splitOnChar (sep : Char) : Str → List Str
  | [] => [[]]
  | c :: rest =>
    if c = sep then [] :: splitOnChar sep rest
    else
      match splitOnChar sep rest with
      | [] => [[c]]
      | h :: t => (c :: h) :: t

theorem splitOnChar_ne_nil (sep : Char) (s : Str) : splitOnChar sep s ≠ [] := by
  induction s with
  | nil => simp [splitOnChar]
  | cons c rest ih =>
    by_cases hc : c = sep
    · simp [splitOnChar, hc]
    · simp only [splitOnChar, if_neg hc]
      cases hsp : splitOnChar sep rest with
      | nil => simp
      | cons h t => simp

/-- No chunk produced by `splitOnChar` contains the separator. -/
theorem splitOnChar_not_mem (sep : Char) (s : Str) :
    ∀ p ∈ splitOnChar sep s, sep ∉ p := by
  induction s with
  | nil =>
    intro p hp
    simp [splitOnChar] at hp
    simp [hp]
  | cons c rest ih =>
    intro p hp
    by_cases hc : c = sep
    · simp only [splitOnChar, if_pos hc] at hp
      rcases List.mem_cons.1 hp with h | h
      · simp [h]
      · exact ih p h
    · simp only [splitOnChar, if_neg hc] at hp
      cases hsp : splitOnChar sep rest with
      | nil => exact absurd hsp (splitOnChar_ne_nil sep rest)
      | cons h t =>
        rw [hsp] at hp
        rcases List.mem_cons.1 hp with h1 | h1
        · subst h1
          intro hmem
          rcases List.mem_cons.1 hmem with h2 | h2
          · exact hc h2.symm
          · exact ih h (by rw [hsp]; exact List.mem_cons_self h t) h2
        · exact ih p (by rw [hsp]; exact List.mem_cons_of_mem h h1)

/-- Splitting distributes over an occurrence of the separator. -/
theorem splitOnChar_append (sep : Char) (a b : Str) :
    splitOnChar sep (a ++ sep :: b) = splitOnChar sep a ++ splitOnChar sep b := by
  induction a with
  | nil => simp [splitOnChar]
  | cons c rest ih =>
    by_cases hc : c = sep
    · simp [splitOnChar, hc, ih]
    · simp only [List.cons_append, splitOnChar, if_neg hc, List.append_eq]
      rw [ih]
      cases hsp : splitOnChar sep rest with
      | nil => exact absurd hsp (splitOnChar_ne_nil sep rest)
      | cons h t => simp

/-- The fixed `colorFromName` lookup table of `coloredTextFromRawTokens`,
mapping Pygments token names to short highlight classes. -/
def colorFromName : List (Str × Str) := [
  (S "Token.Comment", S "c"),
  (S "Token.Keyword", S "k"),
  (S "Token.Literal", S "l"),
  (S "Token.Name", S "n"),
  (S "Token.Operator", S "o"),
  (S "Token.Punctuation", S "p"),
  (S "Token.Comment.Multiline", S "cm"),
  (S "Token.Comment.Preproc", S "cp"),
  (S "Token.Comment.Single", S "c1"),
  (S "Token.Comment.Special", S "cs"),
  (S "Token.Keyword.Constant", S "kc"),
  (S "Token.Keyword.Declaration", S "kd"),
  (S "Token.Keyword.Namespace", S "kn"),
  (S "Token.Keyword.Pseudo", S "kp"),
  (S "Token.Keyword.Reserved", S "kr"),
  (S "Token.Keyword.Type", S "kt"),
  (S "Token.Literal.Date", S "ld"),
  (S "Token.Literal.Number", S "m"),
  (S "Token.Literal.String", S "s"),
  (S "Token.Name.Attribute", S "na"),
  (S "Token.Name.Class", S "nc"),
  (S "Token.Name.Constant", S "no"),
  (S "Token.Name.Decorator", S "nd"),
  (S "Token.Name.Entity", S "ni"),
  (S "Token.Name.Exception", S "ne"),
  (S "Token.Name.Function", S "nf"),
  (S "Token.Name.Label", S "nl"),
  (S "Token.Name.Namespace", S "nn"),
  (S "Token.Name.Property", S "py"),
  (S "Token.Name.Tag", S "nt"),
  (S "Token.Name.Variable", S "nv"),
  (S "Token.Operator.Word", S "ow"),
  (S "Token.Literal.Number.Bin", S "mb"),
  (S "Token.Literal.Number.Float", S "mf"),
  (S "Token.Literal.Number.Hex", S "mh"),
  (S "Token.Literal.Number.Integer", S "mi"),
  (S "Token.Literal.Number.Oct", S "mo"),
  (S "Token.Literal.String.Backtick", S "sb"),
  (S "Token.Literal.String.Char", S "sc"),
  (S "Token.Literal.String.Doc", S "sd"),
  (S "Token.Literal.String.Double", S "s2"),
  (S "Token.Literal.String.Escape", S "se"),
  (S "Token.Literal.String.Heredoc", S "sh"),
  (S "Token.Literal.String.Interpol", S "si"),
  (S "Token.Literal.String.Other", S "sx"),
  (S "Token.Literal.String.Regex", S "sr"),
  (S "Token.Literal.String.Single", S "s1"),
  (S "Token.Literal.String.Symbol", S "ss"),
  (S "Token.Name.Variable.Class", S "vc"),
  (S "Token.Name.Variable.Global", S "vg"),
  (S "Token.Name.Variable.Instance", S "vi"),
  (S "Token.Literal.Number.Integer.Long", S "il")]

/-- The `for bit in textBits[1:]` loop of `addCtToList`: each later chunk is
preceded by its own uncategorized newline run. -/
def nlInterleave (color : Option Str) : List Str → List ColoredText
  | [] => []
  | bit :: rest => ⟨S "\n", none⟩ :: ⟨bit, color⟩ :: nlInterleave color rest

/-- `addCtToList` from `coloredTextFromRawTokens`: append a coalesced run to
the output, first splitting it at line breaks so that every `\n` becomes its
own uncategorized run (the chunks between breaks keep the run's category). -/
def addCtToList (l : List ColoredText) (ct : ColoredText) : List ColoredText :=
  if '\n' ∈ ct.text then
    match splitOnChar '\n' ct.text with
    | [] => l
    | b0 :: bits => l ++ ⟨b0, ct.color⟩ :: nlInterleave ct.color bits
  else l ++ [ct]

/-- The token loop of `coloredTextFromRawTokens`, already past the external
literal decode: `tokens` is the decoded `(tokenName, tokenText)` list read
from the raw dump (the source obtains it by splitting the dump at line breaks,
partitioning each line at the tab and `eval`-ing the quoted text; that decode
of Python literal syntax is external to the model).  Empty texts are skipped,
adjacent same-category texts are coalesced into `currentCT`, and finished runs
are flushed through `addCtToList`. -/
def ctLoop : Option ColoredText → List ColoredText → List (Str × Str) →
    List ColoredText
  | none, textList, [] => textList
  | some cur, textList, [] => addCtToList textList cur
  | currentCT, textList, (name, text) :: rest =>
    if text = [] then ctLoop currentCT textList rest
    else
      let color := lookupName colorFromName name
      match currentCT with
      | none => ctLoop (some ⟨text, color⟩) textList rest
      | some cur =>
        if cur.color = color then
          ctLoop (some ⟨cur.text ++ text, color⟩) textList rest
        else
          ctLoop (some ⟨text, color⟩) (addCtToList textList cur) rest

/-- `coloredTextFromRawTokens`, on the decoded token list. -/
def coloredTextFromRawTokens (tokens : List (Str × Str)) : List ColoredText :=
  ctLoop none [] tokens

/-- The run shape guaranteed by the normalizer's newline splitting: a run is
either the single uncategorized newline run or its text is newline-free. -/
def nlOk (c : ColoredText) : Prop :=
  (c.text = S "\n" ∧ c.color = none) ∨ '\n' ∉ c.text

theorem nlInterleave_ok (color : Option Str) (bits : List Str)
    (hb : ∀ b ∈ bits, '\n' ∉ b) :
    ∀ c ∈ nlInterleave color bits, nlOk c := by
  induction bits with
  | nil => simp [nlInterleave]
  | cons b rest ih =>
    intro c hc
    simp only [nlInterleave, List.mem_cons] at hc
    rcases hc with h | h | h
    · subst h; left; exact ⟨rfl, rfl⟩
    · subst h; right; exact hb b (List.mem_cons_self b rest)
    · exact ih (fun x hx => hb x (List.mem_cons_of_mem b hx)) c h

theorem addCtToList_ok (l : List ColoredText) (ct : ColoredText)
    (hl : ∀ c ∈ l, nlOk c) : ∀ c ∈ addCtToList l ct, nlOk c := by
  intro c hc
  by_cases hnl : '\n' ∈ ct.text
  · rw [addCtToList, if_pos hnl] at hc
    cases hsp : splitOnChar '\n' ct.text with
    | nil => exact absurd hsp (splitOnChar_ne_nil _ _)
    | cons b0 bits =>
      rw [hsp] at hc
      simp only [List.mem_append, List.mem_cons] at hc
      rcases hc with h | h | h
      · exact hl c h
      · subst h; right
        exact splitOnChar_not_mem '\n' ct.text b0 (hsp ▸ List.mem_cons_self _ _)
      · refine nlInterleave_ok ct.color bits ?_ c h
        intro b hb
        exact splitOnChar_not_mem '\n' ct.text b (hsp ▸ List.mem_cons_of_mem _ hb)
  · rw [addCtToList, if_neg hnl] at hc
    rcases List.mem_append.1 hc with h | h
    · exact hl c h
    · simp only [List.mem_singleton] at h
      subst h; right; exact hnl

theorem ctLoop_cons_some (cu : ColoredText) (acc : List ColoredText)
    (name text : Str) (rest : List (Str × Str)) (ht : text ≠ []) :
    ctLoop (some cu) acc ((name, text) :: rest) =
      if cu.color = lookupName colorFromName name then
        ctLoop (some ⟨cu.text ++ text, lookupName colorFromName name⟩) acc rest
      else
        ctLoop (some ⟨text, lookupName colorFromName name⟩)
          (addCtToList acc cu) rest := by
  rw [ctLoop, if_neg ht]

theorem ctLoop_ok (tokens : List (Str × Str)) :
    ∀ (cur : Option ColoredText) (acc : List ColoredText),
      (∀ c ∈ acc, nlOk c) → ∀ c ∈ ctLoop cur acc tokens, nlOk c := by
  induction tokens with
  | nil =>
    intro cur acc hacc c hc
    cases cur with
    | none => exact hacc c hc
    | some cu => exact addCtToList_ok acc cu hacc c hc
  | cons tok rest ih =>
    intro cur acc hacc c hc
    obtain ⟨name, text⟩ := tok
    by_cases ht : text = []
    · rw [ctLoop, if_pos ht] at hc
      exact ih cur acc hacc c hc
    · cases cur with
      | none =>
        rw [ctLoop, if_neg ht] at hc
        exact ih _ acc hacc c hc
      | some cu =>
        rw [ctLoop_cons_some cu acc name text rest ht] at hc
        by_cases hcol : cu.color = lookupName colorFromName name
        · rw [if_pos hcol] at hc
          exact ih _ acc hacc c hc
        · rw [if_neg hcol] at hc
          exact ih _ _ (addCtToList_ok acc cu hacc) c hc

/-- C4 counterexample: the normalizer does emit empty-text runs.  The decoded
token `("Token.Text", "\n")` produces the output
`[("",none), ("\n",none), ("",none)]`, whose first and last runs have empty
text. -/
theorem coloredTextFromRawTokens_empty_run_counterexample :
    coloredTextFromRawTokens [(S "Token.Text", S "\n")] =
      [⟨[], none⟩, ⟨S "\n", none⟩, ⟨[], none⟩] ∧
    ∃ c ∈ coloredTextFromRawTokens [(S "Token.Text", S "\n")], c.text = [] :=
  ⟨rfl, ⟨⟨[], none⟩, by decide, rfl⟩⟩

/-- C4 amended: the normalizer does not guarantee non-empty run texts — the
newline split emits the (possibly empty) chunks before and after each `\n`
unconditionally.  What holds instead is newline isolation: every emitted run
is either the single uncategorized newline run or has newline-free text. -/
theorem coloredTextFromRawTokens_newline_isolation
    (tokens : List (Str × Str)) :
    ∀ c ∈ coloredTextFromRawTokens tokens, nlOk c :=
  fun c hc => ctLoop_ok tokens none [] (by simp) c hc

theorem coloredTextFromRawTokens_newline_isolation_witness :
    (⟨S "for", some (S "k")⟩ : ColoredText) ∈
      coloredTextFromRawTokens [(S "Token.Keyword", S "for")] ∧
    nlOk ⟨S "for", some (S "k")⟩ :=
  ⟨by decide,
   coloredTextFromRawTokens_newline_isolation
     [(S "Token.Keyword", S "for")] ⟨S "for", some (S "k")⟩ (by decide)⟩

theorem lookupName_eq_none (l : List (Str × Str)) (key : Str)
    (h : ∀ p ∈ l, p.1 ≠ key) : lookupName l key = none := by
  induction l with
  | nil => rfl
  | cons p rest ih =>
    obtain ⟨k, v⟩ := p
    rw [lookupName, if_neg (h (k, v) (List.mem_cons_self _ _))]
    exact ih fun q hq => h q (List.mem_cons_of_mem _ hq)

/-- C9: a token whose category label is absent from the fixed lookup table is
mapped to "no category" rather than rejected: the lookup yields `none` and the
token's text is emitted as a single uncolored run. -/
theorem unknown_category_uncolored (label t : Str)
    (h1 : ∀ p ∈ colorFromName, p.1 ≠ label) (h2 : t ≠ []) (h3 : '\n' ∉ t) :
    lookupName colorFromName label = none ∧
    coloredTextFromRawTokens [(label, t)] = [⟨t, none⟩] := by
  have hl := lookupName_eq_none colorFromName label h1
  refine ⟨hl, ?_⟩
  rw [coloredTextFromRawTokens, ctLoop, if_neg h2]
  simp only [hl, ctLoop]
  rw [addCtToList, if_neg h3]
  rfl

theorem unknown_category_uncolored_witness :
    lookupName colorFromName (S "Token.Text") = none ∧
    coloredTextFromRawTokens [(S "Token.Text", S "x")] =
      [⟨S "x", none⟩] :=
  unknown_category_uncolored (S "Token.Text") (S "x")
    (by decide) (by decide) (by decide)

/-- Modelled from the spec: `htmlhelpers.addClass(el, cls)` (the helper module
is not among the sources at hand).  Per spec §4.2 an added category is joined
to an existing class with a space, forming a compound space-joined class name;
adding an empty annotation (no category) keeps the node as is. -/
def addClass (n : HNode) (cls : Str) : HNode :=
  if cls = [] then n
  else if (getAttr n (S "class")).getD [] = [] then
    setAttr n (S "class") cls
  else
    setAttr n (S "class") ((getAttr n (S "class")).getD [] ++ ' ' :: cls)

/-- Modelled from the spec: `htmlhelpers.hasClass(el, cls)` (the helper module
is not among the sources at hand) — whether `cls` occurs among the
space-separated tokens of the node's class attribute. -/
def hasClass (n : HNode) (cls : Str) : Bool :=
  match getAttr n (S "class") with
  | none => false
  | some s => decide (cls ∈ splitOnChar ' ' s)

theorem sizeOf_childNodesOf (n : HNode) : sizeOf (childNodesOf n) < sizeOf n := by
  cases n with
  | text s => cases s <;> simp [childNodesOf]
  | elem t a cs => simp [childNodesOf]

mutual

/-- `flattenHighlighting(el)`: flatten nested highlight markup into a
container `div` of raw text and single-level spans, merging ancestor classes
onto descendants. -/
def flattenHighlighting (el : HNode) : HNode :=
  .elem (S "div") [] (flattenLoop el (childNodesOf el))
termination_by sizeOf el
decreasing_by
  exact sizeOf_childNodesOf el

/-- The `for node in childNodes(el)` loop of `flattenHighlighting`: raw text
and childless elements pass through; an element with internal structure is
flattened recursively and each resulting subnode receives the parent's class
(`overclass`) — elements via `addClass`, raw text by being wrapped in a span
with that class. -/
def flattenLoop (el : HNode) : List HNode → List HNode
  | [] => []
  | node :: rest =>
    (if ¬ isElement node then [node]
     else if ¬ hasChildElements node then [node]
     else
       let overclass := (getAttr el (S "class")).getD []
       (childNodesOf (flattenHighlighting node)).map fun subnode =>
         if isElement subnode then addClass subnode overclass
         else .elem (S "span") [(S "class", overclass)] [subnode])
    ++ flattenLoop el rest
termination_by l => sizeOf l
decreasing_by
  all_goals simp <;> omega

end

/-- The attribute list carrying an optional class annotation. -/
def classAttrOf : Option Str → List (Str × Str)
  | none => []
  | some s => [(S "class", s)]

/-- Spec §4.2's three-case annotation combination, used to state C6: keep the
child's annotation when the parent has none, adopt the parent's when the child
has none, and space-join the two when both are present. -/
def combineClasses : Option Str → Option Str → Option Str
  | none, cc => cc
  | some p, none => some p
  | some p, some c => some (c ++ ' ' :: p)

/-- A parent with optional class `pc` holding a structured child whose only
content is a leaf span with optional class `cc` over text `t`. -/
def nestedExample (pc cc : Option Str) (t : Str) : HNode :=
  .elem (S "pre") (classAttrOf pc)
    [.elem (S "span") [] [.elem (S "span") (classAttrOf cc) [.text t]]]

/-- A parent with class `p` holding a structured child containing raw text `t`
and a leaf span with optional class `cc` over text `u`. -/
def nestedMixedExample (p : Str) (cc : Option Str) (t u : Str) : HNode :=
  .elem (S "pre") [(S "class", p)]
    [.elem (S "span") [] [.text t, .elem (S "span") (classAttrOf cc) [.text u]]]

/-- C6: when flattening nested markup, an emitted node coming from a nested
child keeps its own annotation if the parent has none, adopts the parent's
annotation if it has none itself, and carries the space-joined compound of the
two when both are present (child's first, parent's appended); raw text inside
an annotated structured child is wrapped in a span carrying the parent's
annotation. -/
theorem flattenHighlighting_class_merging (pc cc : Option Str) (p t u : Str)
    (hpc : pc ≠ some []) (hcc : cc ≠ some []) (hp : p ≠ []) :
    flattenHighlighting (nestedExample pc cc t) =
      .elem (S "div") []
        [.elem (S "span") (classAttrOf (combineClasses pc cc)) [.text t]] ∧
    flattenHighlighting (nestedMixedExample p cc t u) =
      .elem (S "div") []
        [.elem (S "span") [(S "class", p)] [.text t],
         .elem (S "span") (classAttrOf (combineClasses (some p) cc)) [.text u]] := by
  constructor
  · cases pc with
    | none =>
      cases cc with
      | none =>
        simp [nestedExample, flattenHighlighting, flattenLoop, childNodesOf,
          isElement, hasChildElements, getAttr, lookupName, classAttrOf,
          combineClasses, addClass]
      | some c =>
        have hc : c ≠ [] := fun h => hcc (by rw [h])
        simp [nestedExample, flattenHighlighting, flattenLoop, childNodesOf,
          isElement, hasChildElements, getAttr, lookupName, classAttrOf,
          combineClasses, addClass, hc]
    | some q =>
      have hq : q ≠ [] := fun h => hpc (by rw [h])
      cases cc with
      | none =>
        simp [nestedExample, flattenHighlighting, flattenLoop, childNodesOf,
          isElement, hasChildElements, getAttr, lookupName, classAttrOf,
          combineClasses, addClass, setAttr, setPair, hq]
      | some c =>
        have hc : c ≠ [] := fun h => hcc (by rw [h])
        simp [nestedExample, flattenHighlighting, flattenLoop, childNodesOf,
          isElement, hasChildElements, getAttr, lookupName, classAttrOf,
          combineClasses, addClass, setAttr, setPair, hq, hc]
  · cases cc with
    | none =>
      simp [nestedMixedExample, flattenHighlighting, flattenLoop, childNodesOf,
        isElement, hasChildElements, getAttr, lookupName, classAttrOf,
        combineClasses, addClass, setAttr, setPair, hp]
    | some c =>
      have hc : c ≠ [] := fun h => hcc (by rw [h])
      simp [nestedMixedExample, flattenHighlighting, flattenLoop, childNodesOf,
        isElement, hasChildElements, getAttr, lookupName, classAttrOf,
        combineClasses, addClass, setAttr, setPair, hp, hc]

theorem flattenHighlighting_class_merging_witness :
    flattenHighlighting (nestedExample (some (S "kt")) (some (S "n")) (S "x")) =
      .elem (S "div") []
        [.elem (S "span") [(S "class", S "n kt")] [.text (S "x")]] ∧
    flattenHighlighting
        (nestedMixedExample (S "k") (some (S "n")) (S "x") (S "y")) =
      .elem (S "div") []
        [.elem (S "span") [(S "class", S "k")] [.text (S "x")],
         .elem (S "span") [(S "class", S "n k")] [.text (S "y")]] :=
  flattenHighlighting_class_merging (some (S "kt")) (some (S "n")) (S "k")
    (S "x") (S "y") (by decide) (by decide) (by decide)

/-- Python whitespace (`\s` over ASCII, as used by `re.sub` and `int`). -/
def pyIsSpace (c : Char) : Bool :=
  c = ' ' ∨ c = '\t' ∨ c = '\n' ∨ c = '\r' ∨ c = '\x0b' ∨ c = '\x0c'

/-- The decimal-digit reading inside Python `int(s)`: all characters must be
digits and there must be at least one. -/
def digitsToNat? : Str → Option Nat
  | [] => none
  | ds =>
    if ds.all (·.isDigit) then
      some (ds.foldl (fun a c => a * 10 + (c.toNat - 48)) 0)
    else none

/-- Strip leading and trailing Python whitespace. -/
def pyStrip (s : Str) : Str :=
  ((s.dropWhile (pyIsSpace ·)).reverse.dropWhile (pyIsSpace ·)).reverse

/-- Python `int(s)` (base 10): optional surrounding whitespace, an optional
sign, then decimal digits; anything else raises `ValueError`, modelled as
`none`. -/
def pyInt? (s : Str) : Option Int :=
  match pyStrip s with
  | '-' :: ds => (digitsToNat? ds).map (fun n => -(n : Int))
  | '+' :: ds => (digitsToNat? ds).map (fun n => (n : Int))
  | ds => (digitsToNat? ds).map (fun n => (n : Int))

/-- Decimal rendering of a line number (Python `unicode(n)`). -/
def intToStr (n : Int) : Str :=
  if n < 0 then '-' :: Nat.toDigits 10 (-n).toNat
  else Nat.toDigits 10 n.toNat

/-- The `line-start` handling of `determineLineNumbers` (highlight.py lines
88-96): a missing attribute defaults to 1; a value parsing as an integer (any
integer — no positivity check) is used as is with no diagnostic; a
non-integer value produces one diagnostic (`die`) and falls back to 1.  The
second component counts emitted diagnostics. -/
def determineLineStart : Option Str → Int × Nat
  | none => (1, 0)
  | some s =>
    match pyInt? s with
    | some n => (n, 0)
    | none => (1, 1)

/-- Python `range(low, high+1)` over integers. -/
def rangeInt (low high : Int) : List Int :=
  (List.range (high + 1 - low).toNat).map (fun i => low + (i : Int))

/-- One comma-separated item of the `line-highlight` attribute (lines
104-124): an item containing a dash is split at the first dash into
`low-high`; non-integer endpoints or `low >= high` produce one diagnostic and
yield nothing, otherwise the range expands to `range(low, high+1)`.  A plain
item parses as a single integer or produces one diagnostic. -/
def parseHighlightItem (item : Str) : List Int × Nat :=
  if '-' ∈ item then
    let low := item.takeWhile (· ≠ '-')
    let high := (item.dropWhile (· ≠ '-')).drop 1
    match pyInt? low, pyInt? high with
    | some l, some h => if l ≥ h then ([], 1) else (rangeInt l h, 0)
    | _, _ => ([], 1)
  else
    match pyInt? item with
    | some n => ([n], 0)
    | none => ([], 1)

/-- The fold step of `determineLineHighlights`: process one item, extending
the collected highlights and adding its diagnostics. -/
def hlStep (acc : List Int × Nat) (item : Str) : List Int × Nat :=
  let r := parseHighlightItem item
  (acc.1 ++ r.1, acc.2 + r.2)

/-- The `line-highlight` handling of `determineLineNumbers` (lines 98-126):
remove all whitespace (`re.sub(r"\s*", "", lh)`), split at commas and process
every item.  The Python set of line numbers is modelled as the list of
collected values (read through membership); the second component counts the
diagnostics. -/
def determineLineHighlights : Option Str → List Int × Nat
  | none => ([], 0)
  | some lh =>
    (splitOnChar ',' (lh.filter (fun c => !(pyIsSpace c)))).foldl hlStep ([], 0)

/-- A fresh `E.div({"class": "line"})` line wrapper. -/
def newLineWrapper : HNode := .elem (S "div") [(S "class", S "line")] []

/-- A fresh `E.span({"class": "line-no"})` line-number marker. -/
def lineNoSpan : HNode := .elem (S "span") [(S "class", S "line-no")] []

/-- `appendChild(el, string)` under lxml: the text merges into the trailing
text slot when the last child is text, otherwise a new text slot is appended
at the end. -/
def appendTextToList : List HNode → Str → List HNode
  | [], s => [.text s]
  | [.text tx], s => [.text (tx ++ s)]
  | n :: rest, s => n :: appendTextToList rest s

/-- `appendChild(el, string)` on an element. -/
def appendText (n : HNode) (s : Str) : HNode :=
  match n with
  | .text tx => .text tx
  | .elem t a cs => .elem t a (appendTextToList cs s)

/-- `appendChild(el, node)` for an element child. -/
def appendChildNode (n : HNode) (child : HNode) : HNode :=
  match n with
  | .text tx => .text tx
  | .elem t a cs => .elem t a (cs ++ [child])

/-- The `while True` / `partition("\n")` loop of `addLineWrappers` over one
text child, rendered over the chunks of the text split at `"\n"`: every chunk
but the last is appended to the current wrapper, which is then emitted behind
a fresh number marker and replaced; the last chunk stays in the current
wrapper. -/
def wrapParts (acc : List (HNode × HNode)) (cur : HNode) :
    List Str → List (HNode × HNode) × HNode
  | [] => (acc, cur)
  | [p] => (acc, appendText cur p)
  | p :: rest =>
    wrapParts (acc ++ [(lineNoSpan, appendText cur p)]) newLineWrapper rest

/-- The `for node in childNodes(el, clear=True)` loop of `addLineWrappers`:
element children join the current line wrapper unsplit; text children are
split at their line breaks. -/
def wrapNodes (acc : List (HNode × HNode)) (cur : HNode) :
    List HNode → List (HNode × HNode) × HNode
  | [] => (acc, cur)
  | .elem t a cs :: rest =>
    wrapNodes acc (appendChildNode cur (.elem t a cs)) rest
  | .text s :: rest =>
    let r := wrapParts acc cur (splitOnChar '\n' s)
    wrapNodes r.1 r.2 rest

mutual

/-- `countInternalNewlines(el)`: the number of line breaks anywhere inside a
node's text content. -/
def countInternalNewlines : HNode → Nat
  | .text s => s.count '\n'
  | .elem _ _ cs => countNewlinesList cs

/-- Sum of `countInternalNewlines` over a child list. -/
def countNewlinesList : List HNode → Nat
  | [] => 0
  | n :: rest => countInternalNewlines n + countNewlinesList rest

end

/-- Modelled from the spec: `htmlhelpers.isEmpty(el)` (the helper module is
not among the sources at hand) — a line wrapper is blank when it has no
content at all: no element children and no text. -/
def isEmpty (n : HNode) : Bool :=
  (childNodesOf n).all fun c =>
    match c with
    | .text s => s.isEmpty
    | .elem _ _ _ => false

/-- lxml `node.text = s`: replace the leading text slot (or insert one). -/
def setLeadingText (n : HNode) (s : Str) : HNode :=
  match n with
  | .text tx => .text tx
  | .elem t a (.text _ :: rest) => .elem t a (.text s :: rest)
  | .elem t a cs => .elem t a (.text s :: cs)

/-- The `for i in range(1, internalNewlines+1)` loop of `addLineWrappers`
(lines 395-399): an internal line number found in the highlight set adds the
highlight class to the marker and the wrapper and re-sets the marker's `line`
attribute to the pair's start line. -/
def innerHighlightLoop (hl : List Int) (n : Int) (p : HNode × HNode) :
    List Nat → HNode × HNode
  | [] => p
  | i :: rest =>
    innerHighlightLoop hl n
      (if n + (i : Int) ∈ hl then
        (setAttr (addClass p.1 (S "highlight-line")) (S "line") (intToStr n),
         addClass p.2 (S "highlight-line"))
      else p) rest

/-- The body of the numbering loop of `addLineWrappers` (lines 381-403) for
one `(marker, wrapper)` pair at running line number `n`: blank wrappers get a
single space, the `line` attribute is set when numbering or highlighting
applies, highlight classes are added when `n` is highlighted, and internal
line breaks run `innerHighlightLoop`, advance the counter by their count and
(when numbering) record a `line-end` attribute.  Returns the updated pair and
the next running line number. -/
def processPair (numbers : Bool) (hl : List Int) (n : Int)
    (lineNo node : HNode) : HNode × HNode × Int :=
  let node1 := if isEmpty node then setLeadingText node (S " ") else node
  let lineNo1 :=
    if numbers = true ∨ n ∈ hl then setAttr lineNo (S "line") (intToStr n)
    else lineNo
  let node2 := if n ∈ hl then addClass node1 (S "highlight-line") else node1
  let lineNo2 := if n ∈ hl then addClass lineNo1 (S "highlight-line") else lineNo1
  let k := countInternalNewlines node2
  if k ≠ 0 then
    let inner := innerHighlightLoop hl n (lineNo2, node2) (List.range' 1 k)
    let n2 := n + (k : Int)
    let lineNo3 :=
      if numbers = true then setAttr inner.1 (S "line-end") (intToStr n2)
      else inner.1
    (lineNo3, inner.2, n2 + 1)
  else (lineNo2, node2, n + 1)

/-- The numbering loop over all `(marker, wrapper)` pairs. -/
def numberLoop (numbers : Bool) (hl : List Int) : Int →
    List (HNode × HNode) → List (HNode × HNode)
  | _, [] => []
  | n, (lineNo, node) :: rest =>
    let r := processPair numbers hl n lineNo node
    (r.1, r.2.1) :: numberLoop numbers hl r.2.2 rest

/-- `addLineWrappers(el, numbers, start, highlights)`: wrap the top-level
content between line breaks into `(marker, wrapper)` pairs — the final
wrapper is appended only when `len(lineWrapper)`, its number of *element*
children, is non-zero — then number the pairs from `start`, replace the
element's children by the flattened pairs and add the `line-numbered`
class. -/
def addLineWrappers (numbers : Bool) (start : Int) (hl : List Int)
    (el : HNode) : HNode :=
  let w := wrapNodes [] newLineWrapper (childNodesOf el)
  let pairs :=
    if elemChildCount w.2 ≠ 0 then w.1 ++ [(lineNoSpan, w.2)] else w.1
  let pairs2 := numberLoop numbers hl start pairs
  let el2 :=
    match el with
    | .text s => .text s
    | .elem t a _ => .elem t a ((pairs2.map fun p => [p.1, p.2]).flatten)
  addClass el2 (S "line-numbered")

/-- C2 (failing input): on the spec's own Example 1 — fragment text
`"a\nb\nc"`, `start=1`, `numbers=true`, no highlights — `addLineWrappers`
emits only TWO (marker, wrapper) pairs, numbered 1 and 2 with texts `"a"` and
`"b"`; the final line `"c"` is dropped because its wrapper holds no *element*
children, so the `len(lineWrapper)` guard skips it.  The claim expects three
pairs numbered 1, 2, 3. -/
theorem addLineWrappers_drops_trailing_text :
    addLineWrappers true 1 [] (.elem (S "pre") [] [.text (S "a\nb\nc")]) =
      .elem (S "pre") [(S "class", S "line-numbered")]
        [.elem (S "span") [(S "class", S "line-no"), (S "line", S "1")] [],
         .elem (S "div") [(S "class", S "line")] [.text (S "a")],
         .elem (S "span") [(S "class", S "line-no"), (S "line", S "2")] [],
         .elem (S "div") [(S "class", S "line")] [.text (S "b")]] ∧
    concatTextNode (addLineWrappers true 1 []
        (.elem (S "pre") [] [.text (S "a\nb\nc")])) = S "ab" :=
  ⟨rfl, rfl⟩

theorem lookupName_setPair_self (l : List (Str × Str)) (k v : Str) :
    lookupName (setPair l k v) k = some v := by
  induction l with
  | nil => simp [setPair, lookupName]
  | cons p rest ih =>
    obtain ⟨k', w⟩ := p
    by_cases hk : k' = k
    · simp [setPair, hk, lookupName]
    · simp [setPair, hk, lookupName, ih]

theorem lookupName_setPair_other (l : List (Str × Str)) (k k' v : Str)
    (h : k' ≠ k) : lookupName (setPair l k v) k' = lookupName l k' := by
  have h1 : ¬ (k = k') := fun hh => h hh.symm
  induction l with
  | nil => simp [setPair, lookupName, h1]
  | cons p rest ih =>
    obtain ⟨k0, w⟩ := p
    by_cases hk : k0 = k
    · subst hk
      simp [setPair, lookupName, h1]
    · simp [setPair, hk, lookupName, ih]

theorem getAttr_setAttr_self (n : HNode) (k v : Str)
    (he : isElement n = true) : getAttr (setAttr n k v) k = some v := by
  cases n with
  | text s => simp [isElement] at he
  | elem t a cs => simp [setAttr, getAttr, lookupName_setPair_self]

theorem getAttr_setAttr_other (n : HNode) (k k' v : Str) (h : k' ≠ k) :
    getAttr (setAttr n k v) k' = getAttr n k' := by
  cases n with
  | text s => simp [setAttr, getAttr]
  | elem t a cs => simp [setAttr, getAttr, lookupName_setPair_other a k k' v h]

theorem isElement_setAttr (n : HNode) (k v : Str) :
    isElement (setAttr n k v) = isElement n := by
  cases n <;> simp [setAttr, isElement]

theorem isElement_addClass (n : HNode) (cls : Str) :
    isElement (addClass n cls) = isElement n := by
  by_cases hc : cls = []
  · simp [addClass, hc]
  · rw [addClass, if_neg hc]
    by_cases ho : (getAttr n (S "class")).getD [] = [] <;>
      simp [ho, isElement_setAttr]

theorem getAttr_addClass_other (n : HNode) (cls k : Str)
    (h : k ≠ S "class") : getAttr (addClass n cls) k = getAttr n k := by
  by_cases hc : cls = []
  · simp [addClass, hc]
  · rw [addClass, if_neg hc]
    by_cases ho : (getAttr n (S "class")).getD [] = [] <;>
      simp [ho, getAttr_setAttr_other n _ k _ h]

/-- A string without the separator splits into itself alone. -/
theorem splitOnChar_of_not_mem (sep : Char) (s : Str) (h : sep ∉ s) :
    splitOnChar sep s = [s] := by
  induction s with
  | nil => simp [splitOnChar]
  | cons c rest ih =>
    have hc : ¬ c = sep := fun hh => h (hh ▸ List.mem_cons_self c rest)
    have hrest : sep ∉ rest := fun hh => h (List.mem_cons_of_mem c hh)
    simp [splitOnChar, hc, ih hrest]

theorem hasClass_setAttr (n : HNode) (k v cls : Str) (h : k ≠ S "class") :
    hasClass (setAttr n k v) cls = hasClass n cls := by
  rw [hasClass, hasClass, getAttr_setAttr_other n k (S "class") v
    (fun hh => h hh.symm)]

theorem hasClass_addClass_self (n : HNode) (cls : Str) (hcls : cls ≠ [])
    (hsp : ' ' ∉ cls) (he : isElement n = true) :
    hasClass (addClass n cls) cls = true := by
  rw [addClass, if_neg hcls]
  by_cases ho : (getAttr n (S "class")).getD [] = []
  · rw [if_pos ho, hasClass, getAttr_setAttr_self n _ cls he]
    simp [splitOnChar_of_not_mem ' ' cls hsp]
  · rw [if_neg ho, hasClass, getAttr_setAttr_self n _ _ he]
    simp [splitOnChar_append ' ' ((getAttr n (S "class")).getD []) cls,
      splitOnChar_of_not_mem ' ' cls hsp]

theorem hasClass_addClass_other (n : HNode) (cls cls' : Str)
    (hcls : cls ≠ []) (h : hasClass n cls = true) :
    hasClass (addClass n cls') cls = true := by
  by_cases hc : cls' = []
  · rw [addClass, if_pos hc]; exact h
  · rw [hasClass] at h
    cases hg : getAttr n (S "class") with
    | none => rw [hg] at h; simp at h
    | some old =>
      rw [hg] at h
      simp only [decide_eq_true_eq] at h
      have hel : isElement n = true := by
        cases n with
        | text s => simp [getAttr] at hg
        | elem t a cs => simp [isElement]
      have ho : old ≠ [] := by
        intro hh
        subst hh
        simp [splitOnChar] at h
        exact hcls h
      have hd : (getAttr n (S "class")).getD [] = old := by rw [hg]; rfl
      rw [addClass, if_neg hc, hd, if_neg ho, hasClass,
        getAttr_setAttr_self n _ _ hel]
      simp [splitOnChar_append ' ' old cls']
      left
      exact h

theorem countInternalNewlines_setAttr (n : HNode) (k v : Str) :
    countInternalNewlines (setAttr n k v) = countInternalNewlines n := by
  cases n <;> simp [setAttr, countInternalNewlines]

theorem countInternalNewlines_addClass (n : HNode) (cls : Str) :
    countInternalNewlines (addClass n cls) = countInternalNewlines n := by
  by_cases hc : cls = []
  · simp [addClass, hc]
  · rw [addClass, if_neg hc]
    by_cases ho : (getAttr n (S "class")).getD [] = [] <;>
      simp [ho, countInternalNewlines_setAttr]

theorem countInternalNewlines_of_isEmpty (t : Str) (a : List (Str × Str))
    (cs : List HNode) (h : isEmpty (.elem t a cs) = true) :
    countInternalNewlines (.elem t a cs) = 0 := by
  simp only [isEmpty, childNodesOf, List.all_eq_true] at h
  simp only [countInternalNewlines]
  induction cs with
  | nil => simp [countNewlinesList]
  | cons c rest ih =>
    have hc := h c (List.mem_cons_self c rest)
    have hr := ih fun x hx => h x (List.mem_cons_of_mem c hx)
    cases c with
    | text s =>
      simp only [List.isEmpty_iff] at hc
      subst hc
      simp [countNewlinesList, countInternalNewlines, hr]
    | elem t' a' cs' => simp at hc

theorem countInternalNewlines_setLeadingTextSpace (n : HNode)
    (h : countInternalNewlines n = 0) :
    countInternalNewlines (setLeadingText n (S " ")) = 0 := by
  cases n with
  | text tx => simpa [setLeadingText] using h
  | elem t a cs =>
    cases cs with
    | nil =>
      simp [setLeadingText, countInternalNewlines, countNewlinesList]
      decide
    | cons c rest =>
      cases c with
      | text tx =>
        simp only [countInternalNewlines, countNewlinesList] at h
        simp [setLeadingText, countInternalNewlines, countNewlinesList]
        constructor
        · decide
        · omega
      | elem t' a' cs' =>
        simp only [countInternalNewlines, countNewlinesList] at h
        simp [setLeadingText, countInternalNewlines, countNewlinesList]
        refine ⟨by decide, ?_, ?_⟩ <;> omega

theorem isElement_innerHighlightLoop (hl : List Int) (n : Int) :
    ∀ (l : List Nat) (p : HNode × HNode),
      isElement (innerHighlightLoop hl n p l).1 = isElement p.1 ∧
      isElement (innerHighlightLoop hl n p l).2 = isElement p.2 := by
  intro l
  induction l with
  | nil => intro p; simp [innerHighlightLoop]
  | cons i rest ih =>
    intro p
    rw [innerHighlightLoop]
    by_cases hin : n + (i : Int) ∈ hl
    · rw [if_pos hin]
      have h2 := ih (setAttr (addClass p.1 (S "highlight-line")) (S "line")
        (intToStr n), addClass p.2 (S "highlight-line"))
      rw [h2.1, h2.2]
      simp [isElement_setAttr, isElement_addClass]
    · rw [if_neg hin]; exact ih p

theorem hasClass_innerHighlightLoop (hl : List Int) (n : Int) (cls : Str)
    (hcls : cls ≠ []) :
    ∀ (l : List Nat) (p : HNode × HNode),
      (hasClass p.1 cls = true →
        hasClass (innerHighlightLoop hl n p l).1 cls = true) ∧
      (hasClass p.2 cls = true →
        hasClass (innerHighlightLoop hl n p l).2 cls = true) := by
  intro l
  induction l with
  | nil => intro p; simp [innerHighlightLoop]
  | cons i rest ih =>
    intro p
    rw [innerHighlightLoop]
    by_cases hin : n + (i : Int) ∈ hl
    · rw [if_pos hin]
      have h2 := ih (setAttr (addClass p.1 (S "highlight-line")) (S "line")
        (intToStr n), addClass p.2 (S "highlight-line"))
      constructor
      · intro hp
        refine h2.1 ?_
        rw [hasClass_setAttr _ _ _ _ (by decide)]
        exact hasClass_addClass_other p.1 cls _ hcls hp
      · intro hp
        exact h2.2
          (hasClass_addClass_other p.2 cls (S "highlight-line") hcls hp)
    · rw [if_neg hin]; exact ih p

theorem innerHighlightLoop_hits (hl : List Int) (n : Int) :
    ∀ (l : List Nat) (p : HNode × HNode),
      isElement p.1 = true → isElement p.2 = true →
      ∀ i : Nat, i ∈ l → n + (i : Int) ∈ hl →
      hasClass (innerHighlightLoop hl n p l).1 (S "highlight-line") = true ∧
      hasClass (innerHighlightLoop hl n p l).2 (S "highlight-line") = true := by
  intro l
  induction l with
  | nil => intro p _ _ i hi; simp at hi
  | cons j rest ih =>
    intro p he1 he2 i hi hin
    rw [innerHighlightLoop]
    rcases List.mem_cons.1 hi with rfl | hmem
    · rw [if_pos hin]
      have hq1 : hasClass (setAttr (addClass p.1 (S "highlight-line"))
          (S "line") (intToStr n)) (S "highlight-line") = true := by
        rw [hasClass_setAttr _ _ _ _ (by decide)]
        exact hasClass_addClass_self p.1 _ (by decide) (by decide) he1
      have hq2 : hasClass (addClass p.2 (S "highlight-line"))
          (S "highlight-line") = true :=
        hasClass_addClass_self p.2 _ (by decide) (by decide) he2
      have hpres := hasClass_innerHighlightLoop hl n (S "highlight-line")
        (by decide) rest (setAttr (addClass p.1 (S "highlight-line"))
          (S "line") (intToStr n), addClass p.2 (S "highlight-line"))
      exact ⟨hpres.1 hq1, hpres.2 hq2⟩
    · by_cases hjn : n + (j : Int) ∈ hl
      · rw [if_pos hjn]
        refine ih _ ?_ ?_ i hmem hin
        · simp [isElement_setAttr, isElement_addClass, he1]
        · simp [isElement_addClass, he2]
      · rw [if_neg hjn]; exact ih p he1 he2 i hmem hin

theorem numberLoop_length (numbers : Bool) (hl : List Int) :
    ∀ (n : Int) (pairs : List (HNode × HNode)),
      (numberLoop numbers hl n pairs).length = pairs.length := by
  intro n pairs
  induction pairs generalizing n with
  | nil => simp [numberLoop]
  | cons p rest ih =>
    obtain ⟨a, b⟩ := p
    simp [numberLoop, ih]

/-- C8: for a line wrapper whose content holds `k > 0` internal line breaks,
the numbering loop advances the running line counter by `k` (the next pair is
numbered `n + k + 1`); when `numbers` is requested the marker receives a
`line-end` attribute equal to the start line plus `k`; every internal line
number found in the highlight set flags the *same* single marker and wrapper
as highlighted; and the loop never splits a wrapper — it returns exactly one
pair per input pair. -/
theorem processPair_internal_newlines (numbers : Bool) (hl : List Int)
    (n : Int) (lt nt : Str) (la na : List (Str × Str)) (lcs ncs : List HNode)
    (hk : countInternalNewlines (.elem nt na ncs) ≠ 0) :
    (processPair numbers hl n (.elem lt la lcs) (.elem nt na ncs)).2.2 =
      n + (countInternalNewlines (.elem nt na ncs) : Int) + 1 ∧
    (numbers = true →
      getAttr
          (processPair numbers hl n (.elem lt la lcs) (.elem nt na ncs)).1
          (S "line-end") =
        some (intToStr (n + (countInternalNewlines (.elem nt na ncs) : Int)))) ∧
    (∀ i : Nat, 1 ≤ i → i ≤ countInternalNewlines (.elem nt na ncs) →
      n + (i : Int) ∈ hl →
      hasClass (processPair numbers hl n (.elem lt la lcs)
          (.elem nt na ncs)).1 (S "highlight-line") = true ∧
      hasClass (processPair numbers hl n (.elem lt la lcs)
          (.elem nt na ncs)).2.1 (S "highlight-line") = true) ∧
    (∀ (m : Int) (ps : List (HNode × HNode)),
      (numberLoop numbers hl m ps).length = ps.length) := by
  have hne : isEmpty (HNode.elem nt na ncs) = false := by
    by_cases hEmpty : isEmpty (.elem nt na ncs) = true
    · exact absurd (countInternalNewlines_of_isEmpty nt na ncs hEmpty) hk
    · simpa using hEmpty
  set N := HNode.elem nt na ncs with hN
  set L := HNode.elem lt la lcs with hL
  set k := countInternalNewlines N with hkdef
  set L1 := if numbers = true ∨ n ∈ hl then
    setAttr L (S "line") (intToStr n) else L with hL1
  set N2 := if n ∈ hl then addClass N (S "highlight-line") else N with hN2
  set L2 := if n ∈ hl then addClass L1 (S "highlight-line") else L1 with hL2
  have hcnt : countInternalNewlines N2 = k := by
    rw [hN2]; split <;> simp [countInternalNewlines_addClass, hkdef]
  set inner := innerHighlightLoop hl n (L2, N2) (List.range' 1 k) with hinner
  set L3 := if numbers = true then
    setAttr inner.1 (S "line-end") (intToStr (n + (k : Int))) else inner.1
    with hL3
  have hPP : processPair numbers hl n L N = (L3, inner.2, n + (k : Int) + 1) := by
    rw [processPair]
    simp only [hne, Bool.false_eq_true, if_false, hcnt, hk, ne_eq,
      not_false_eq_true, if_true]
  have heL : isElement L = true := by rw [hL]; rfl
  have heN : isElement N = true := by rw [hN]; rfl
  have heL1 : isElement L1 = true := by
    rw [hL1]; split <;> simp [isElement_setAttr, heL]
  have heL2 : isElement L2 = true := by
    rw [hL2]; split <;> simp [isElement_addClass, heL1]
  have heN2 : isElement N2 = true := by
    rw [hN2]; split <;> simp [isElement_addClass, heN]
  have heInner1 : isElement inner.1 = true := by
    rw [hinner, (isElement_innerHighlightLoop hl n (List.range' 1 k)
      (L2, N2)).1]
    exact heL2
  refine ⟨?_, ?_, ?_, fun m ps => numberLoop_length numbers hl m ps⟩
  · rw [hPP]
  · intro hnum
    rw [hPP]
    simp only [hL3, hnum, if_true]
    exact getAttr_setAttr_self inner.1 _ _ heInner1
  · intro i h1 h2 hmem
    have hiin : i ∈ List.range' 1 k := by
      refine List.mem_range'.2 ⟨i - 1, by omega, by omega⟩
    have hhits := innerHighlightLoop_hits hl n (List.range' 1 k) (L2, N2)
      heL2 heN2 i hiin hmem
    rw [hPP]
    constructor
    · rw [hL3]
      split
      · rw [hasClass_setAttr _ _ _ _ (by decide)]
        exact hhits.1
      · exact hhits.1
    · exact hhits.2

/-- A concrete line wrapper holding one internal line break inside a nested
span, used by the C8 witness. -/
def c8node : HNode :=
  .elem (S "div") [(S "class", S "line")]
    [.elem (S "span") [] [.text (S "x\ny")]]

theorem processPair_internal_newlines_witness :
    countInternalNewlines c8node = 1 ∧
    (processPair true [2] 1
        (.elem (S "span") [(S "class", S "line-no")] []) c8node).2.2 = 3 ∧
    getAttr (processPair true [2] 1
        (.elem (S "span") [(S "class", S "line-no")] []) c8node).1
      (S "line-end") = some (S "2") ∧
    (hasClass (processPair true [2] 1
        (.elem (S "span") [(S "class", S "line-no")] []) c8node).1
      (S "highlight-line") = true ∧
     hasClass (processPair true [2] 1
        (.elem (S "span") [(S "class", S "line-no")] []) c8node).2.1
      (S "highlight-line") = true) := by
  have T := processPair_internal_newlines true [2] 1 (S "span") (S "div")
    [(S "class", S "line-no")] [(S "class", S "line")] []
    [.elem (S "span") [] [.text (S "x\ny")]] (by decide)
  exact ⟨by decide, T.1, T.2.1 rfl,
    T.2.2.1 1 (by decide) (by decide) (by decide)⟩

theorem processPair_zero_newlines (hl : List Int) (n : Int)
    (lineNo node : HNode) (he : isElement lineNo = true)
    (hc : countInternalNewlines node = 0) :
    (processPair true hl n lineNo node).2.2 = n + 1 ∧
    getAttr (processPair true hl n lineNo node).1 (S "line") =
      some (intToStr n) := by
  have hc1 : countInternalNewlines
      (if isEmpty node = true then setLeadingText node (S " ") else node) =
        0 := by
    split
    · exact countInternalNewlines_setLeadingTextSpace node hc
    · exact hc
  have hc2 : countInternalNewlines (if n ∈ hl then
      addClass
        (if isEmpty node = true then setLeadingText node (S " ") else node)
        (S "highlight-line")
      else
        (if isEmpty node = true then setLeadingText node (S " ") else node)) =
        0 := by
    split
    · rw [countInternalNewlines_addClass]; exact hc1
    · exact hc1
  rw [processPair]
  simp only [hc2, ne_eq, not_true_eq_false, if_false, eq_self_iff_true,
    true_or, if_true, not_false_eq_true]
  constructor
  · trivial
  · split
    · rw [getAttr_addClass_other _ _ _ (by decide),
        getAttr_setAttr_self _ _ _ he]
    · rw [getAttr_setAttr_self _ _ _ he]

theorem numberLoop_zero_newlines (hl : List Int) :
    ∀ (pairs : List (HNode × HNode)) (start : Int),
      (∀ p ∈ pairs, isElement p.1 = true) →
      (∀ p ∈ pairs, countInternalNewlines p.2 = 0) →
      ∀ i : Nat, i < pairs.length →
        ((numberLoop true hl start pairs)[i]?).map
            (fun p => getAttr p.1 (S "line")) =
          some (some (intToStr (start + (i : Int)))) := by
  intro pairs
  induction pairs with
  | nil => intro start _ _ i hi; simp at hi
  | cons p rest ih =>
    intro start hel hcnt i hi
    obtain ⟨a, b⟩ := p
    have hpz := processPair_zero_newlines hl start a b
      (hel (a, b) (List.mem_cons_self _ _))
      (hcnt (a, b) (List.mem_cons_self _ _))
    rw [numberLoop]
    cases i with
    | zero =>
      simp only [List.getElem?_cons_zero, Option.map_some']
      rw [hpz.2]
      norm_num
    | succ j =>
      simp only [List.getElem?_cons_succ]
      rw [hpz.1]
      have hrec := ih (start + 1)
        (fun q hq => hel q (List.mem_cons_of_mem _ hq))
        (fun q hq => hcnt q (List.mem_cons_of_mem _ hq)) j
        (by simpa using hi)
      rw [hrec]
      have harith : start + 1 + (j : Int) = start + ((j + 1 : Nat) : Int) := by
        push_cast
        ring
      rw [harith]

/-- C10: every `line-start` value that parses as an integer — zero and
negative values included — is accepted with no diagnostic and becomes the
first line number, from which the numbering loop numbers the lines
sequentially; a missing attribute defaults to 1 with no diagnostic; only a
non-integer value produces a diagnostic and falls back to 1.  No positivity
check is ever applied. -/
theorem determineLineStart_any_integer (s : Str) (n : Int)
    (h : pyInt? s = some n) :
    determineLineStart (some s) = (n, 0) ∧
    determineLineStart none = (1, 0) ∧
    (∀ s' : Str, pyInt? s' = none → determineLineStart (some s') = (1, 1)) ∧
    (∀ (hl : List Int) (pairs : List (HNode × HNode)) (start : Int),
      (∀ p ∈ pairs, isElement p.1 = true) →
      (∀ p ∈ pairs, countInternalNewlines p.2 = 0) →
      ∀ i : Nat, i < pairs.length →
        ((numberLoop true hl start pairs)[i]?).map
            (fun p => getAttr p.1 (S "line")) =
          some (some (intToStr (start + (i : Int))))) := by
  refine ⟨?_, rfl, ?_, ?_⟩
  · simp [determineLineStart, h]
  · intro s' h'
    simp [determineLineStart, h']
  · intro hl pairs start hel hcnt i hi
    exact numberLoop_zero_newlines hl pairs start hel hcnt i hi

theorem determineLineStart_any_integer_witness :
    pyInt? (S "-7") = some (-7) ∧
    determineLineStart (some (S "-7")) = (-7, 0) ∧
    determineLineStart (some (S "0")) = (0, 0) :=
  ⟨by decide,
   (determineLineStart_any_integer (S "-7") (-7) (by decide)).1,
   (determineLineStart_any_integer (S "0") 0 (by decide)).1⟩

theorem hlStep_shift (items : List Str) :
    ∀ acc : List Int × Nat,
      items.foldl hlStep acc =
        (acc.1 ++ (items.foldl hlStep ([], 0)).1,
         acc.2 + (items.foldl hlStep ([], 0)).2) := by
  induction items with
  | nil => intro acc; simp
  | cons it rest ih =>
    intro acc
    simp only [List.foldl_cons]
    rw [ih (hlStep acc it), ih (hlStep ([], 0) it)]
    simp [hlStep, List.append_assoc, Nat.add_assoc]

/-- C7: a `low-high` range expands to all integers from `low` to `high`
inclusive; a range with `low >= high` or a non-integer range (either endpoint
failing to parse as an integer) is reported as one diagnostic and skipped;
and the items of a `line-highlight` attribute are processed independently, so
every other value and range in the same attribute still applies. -/
theorem determineLineHighlights_ranges :
    (∀ a b : Str,
      determineLineHighlights (some (a ++ ',' :: b)) =
        ((determineLineHighlights (some a)).1 ++
           (determineLineHighlights (some b)).1,
         (determineLineHighlights (some a)).2 +
           (determineLineHighlights (some b)).2)) ∧
    determineLineHighlights (some (S "3-5")) = ([3, 4, 5], 0) ∧
    determineLineHighlights (some (S "3-3")) = ([], 1) ∧
    determineLineHighlights (some (S "5-3")) = ([], 1) ∧
    determineLineHighlights (some (S "2,4-5")) = ([2, 4, 5], 0) ∧
    determineLineHighlights (some (S "2,5-3,7")) = ([2, 7], 1) ∧
    (∀ item : Str, '-' ∈ item →
      (pyInt? (item.takeWhile (· ≠ '-')) = none ∨
        pyInt? ((item.dropWhile (· ≠ '-')).drop 1) = none) →
      parseHighlightItem item = ([], 1)) ∧
    determineLineHighlights (some (S "a-5")) = ([], 1) ∧
    determineLineHighlights (some (S "3-b")) = ([], 1) ∧
    determineLineHighlights (some (S "2,a-5,7")) = ([2, 7], 1) := by
  refine ⟨?_, by decide, by decide, by decide, by decide, by decide, ?_,
    by decide, by decide, by decide⟩
  · intro a b
    have hfil : (a ++ ',' :: b).filter (fun c => !(pyIsSpace c)) =
        a.filter (fun c => !(pyIsSpace c)) ++
          ',' :: b.filter (fun c => !(pyIsSpace c)) := by
      rw [List.filter_append, List.filter_cons]
      simp [pyIsSpace]
    simp only [determineLineHighlights]
    rw [hfil, splitOnChar_append, List.foldl_append,
      hlStep_shift (splitOnChar ',' (b.filter (fun c => !(pyIsSpace c))))
        ((splitOnChar ',' (a.filter (fun c => !(pyIsSpace c)))).foldl hlStep
          ([], 0))]
  · intro item hmem hbad
    cases hlow : pyInt? (item.takeWhile (· ≠ '-')) with
    | none =>
      cases hhigh : pyInt? ((item.dropWhile (· ≠ '-')).drop 1) with
      | none =>
        simp only [ne_eq, decide_not, List.drop_one] at hlow hhigh
        simp [parseHighlightItem, hmem, hlow, hhigh]
      | some h2 =>
        simp only [ne_eq, decide_not, List.drop_one] at hlow hhigh
        simp [parseHighlightItem, hmem, hlow, hhigh]
    | some l =>
      cases hhigh : pyInt? ((item.dropWhile (· ≠ '-')).drop 1) with
      | none =>
        simp only [ne_eq, decide_not, List.drop_one] at hlow hhigh
        simp [parseHighlightItem, hmem, hlow, hhigh]
      | some h2 =>
        exfalso
        rcases hbad with hb | hb
        · rw [hlow] at hb; simp at hb
        · rw [hhigh] at hb; simp at hb

theorem determineLineHighlights_ranges_witness :
    ('-' ∈ S "a-5") ∧
    pyInt? ((S "a-5").takeWhile (· ≠ '-')) = none ∧
    parseHighlightItem (S "a-5") = ([], 1) :=
  ⟨by decide, by decide,
   determineLineHighlights_ranges.2.2.2.2.2.2.1 (S "a-5") (by decide)
     (Or.inl (by decide))⟩
